import Mathlib

/-!
Verification of the retrieval-and-fusion core of the hybrid PDF search engine
(parent/child chunk store, reciprocal-rank fusion, reranker degrade path,
score normalization, derived tsvector keys, and the UI percentage formatter).

The repository ships the frontend, the SQL migrations and the pipeline
documentation; the fusion/retrieval engine itself is not among the shipped
sources, so those components are modelled from the specification (each such
definition carries a doc comment starting `Modelled from the spec:`).
The SQL trigger functions and the frontend formatter are embedded directly
from their sources.
-/

namespace SearchEngine

/-! ## Chunk identity and tie-break orders -/

/-- A chunk's identity for ranking purposes: the data model declares
`(document_id, page_num, chunk_index)` unique per chunk. -/
structure ChunkKey where
  document_id : Nat
  page_num : Nat
  chunk_index : Nat
deriving DecidableEq, Repr

/-- Modelled from the spec: fusion tie-break order — `document_id`, then
`page_num`, then `chunk_index`, ascending (spec 4.3). -/
def keyLe (a b : ChunkKey) : Prop :=
  a.document_id < b.document_id ∨
    (a.document_id = b.document_id ∧
      (a.page_num < b.page_num ∨
        (a.page_num = b.page_num ∧ a.chunk_index ≤ b.chunk_index)))

instance : DecidableRel keyLe := fun a b => by
  unfold keyLe
  infer_instance

theorem keyLe_total (a b : ChunkKey) : keyLe a b ∨ keyLe b a := by
  unfold keyLe
  omega

theorem keyLe_trans (a b c : ChunkKey) : keyLe a b → keyLe b c → keyLe a c := by
  unfold keyLe
  omega

/-- Modelled from the spec: retriever-level tie-break order —
`(page_num, chunk_index)` ascending (spec 4.2). -/
def retrTieLe (a b : ChunkKey) : Prop :=
  a.page_num < b.page_num ∨ (a.page_num = b.page_num ∧ a.chunk_index ≤ b.chunk_index)

instance : DecidableRel retrTieLe := fun a b => by
  unfold retrTieLe
  infer_instance

theorem retrTieLe_total (a b : ChunkKey) : retrTieLe a b ∨ retrTieLe b a := by
  unfold retrTieLe
  omega

theorem retrTieLe_trans (a b c : ChunkKey) : retrTieLe a b → retrTieLe b c → retrTieLe a c := by
  unfold retrTieLe
  omega

/-! ## Reciprocal Rank Fusion

Modelled from the spec (4.3) and the pipeline documentation shipped with the
migrations: `RRF(d) = Σ 1/(k + rank(d))` where `k = 60`. -/

/-- The documented RRF constant `k = 60`. -/
def RRF_K : ℚ := 60

/-- The contribution of one list at 1-based rank `r`: `1 / (k + r)`. -/
def rrfTerm (r : Nat) : ℚ := 1 / (RRF_K + r)

/-- 1-based rank of `d` in ranked list `l` (meaningful when `d ∈ l`). -/
def rankIn (l : List ChunkKey) (d : ChunkKey) : Nat := l.indexOf d + 1

/-- 1-based rank of `d` in `l`, or `none` when `d` is absent. -/
def rankOpt (l : List ChunkKey) (d : ChunkKey) : Option Nat :=
  if d ∈ l then some (rankIn l d) else none

/-- Contribution of an optional rank: absent lists contribute 0. -/
def optTerm (o : Option Nat) : ℚ := o.elim 0 rrfTerm

/-- Contribution of list `l` to the fusion score of `d`: `1/(k + rank)` when
`d` appears in `l`, otherwise 0. -/
def rrfContrib (l : List ChunkKey) (d : ChunkKey) : ℚ :=
  if d ∈ l then rrfTerm (rankIn l d) else 0

/-- Fusion score of `d` over the semantic, lexical and relation lists. -/
def rrfScore (sem lex rel : List ChunkKey) (d : ChunkKey) : ℚ :=
  rrfContrib sem d + rrfContrib lex d + rrfContrib rel d

/-- Fusion output order: descending fusion score, ties by `keyLe`. -/
def rrfLE (a b : ChunkKey × ℚ) : Prop :=
  b.2 < a.2 ∨ (a.2 = b.2 ∧ keyLe a.1 b.1)

instance : DecidableRel rrfLE := fun a b => by
  unfold rrfLE
  infer_instance

instance : IsTotal (ChunkKey × ℚ) rrfLE where
  total a b := by
    unfold rrfLE
    rcases lt_trichotomy a.2 b.2 with h | h | h
    · exact Or.inr (Or.inl h)
    · rcases keyLe_total a.1 b.1 with hk | hk
      · exact Or.inl (Or.inr ⟨h, hk⟩)
      · exact Or.inr (Or.inr ⟨h.symm, hk⟩)
    · exact Or.inl (Or.inl h)

instance : IsTrans (ChunkKey × ℚ) rrfLE where
  trans a b c hab hbc := by
    unfold rrfLE at *
    rcases hab with hab | ⟨hab, hk⟩
    · rcases hbc with hbc | ⟨hbc, _⟩
      · exact Or.inl (hbc.trans hab)
      · exact Or.inl (hbc ▸ hab)
    · rcases hbc with hbc | ⟨hbc, hk2⟩
      · exact Or.inl (hab ▸ hbc)
      · exact Or.inr ⟨hab.trans hbc, keyLe_trans _ _ _ hk hk2⟩

/-- Modelled from the spec: the Fusion Ranker. Collects every chunk appearing
in at least one input list, scores it with `rrfScore`, and sorts by
descending fusion score with `keyLe` tie-break. -/
def rrfFuse (sem lex rel : List ChunkKey) : List (ChunkKey × ℚ) :=
  List.insertionSort rrfLE
    (((sem ++ lex ++ rel).dedup).map (fun d => (d, rrfScore sem lex rel d)))

theorem mem_rrfFuse (sem lex rel : List ChunkKey) (p : ChunkKey × ℚ) :
    p ∈ rrfFuse sem lex rel ↔
      p.1 ∈ (sem ++ lex ++ rel).dedup ∧ p.2 = rrfScore sem lex rel p.1 := by
  unfold rrfFuse
  rw [List.mem_insertionSort, List.mem_map]
  constructor
  · rintro ⟨d, hd, rfl⟩
    exact ⟨hd, rfl⟩
  · rintro ⟨hd, hq⟩
    exact ⟨p.1, hd, by rw [← hq]⟩

theorem map_fst_rrfFuse (sem lex rel : List ChunkKey) :
    ((rrfFuse sem lex rel).map Prod.fst).Perm (sem ++ lex ++ rel).dedup := by
  unfold rrfFuse
  have h := (List.perm_insertionSort rrfLE
    (((sem ++ lex ++ rel).dedup).map (fun d => (d, rrfScore sem lex rel d)))).map Prod.fst
  simpa [List.map_map, Function.comp_def] using h

/-- C1: the Fusion Ranker's output contains exactly the chunks appearing in at
least one input list, each exactly once, each carrying the fusion score
`Σ_i 1/(60 + rank_i(d))` (absent lists contributing 0), ordered by descending
fusion score with ties broken by document_id, then page_num, then chunk_index,
ascending. -/
theorem rrf_fusion_correct (sem lex rel : List ChunkKey) :
    (∀ d : ChunkKey, (∃ q, (d, q) ∈ rrfFuse sem lex rel) ↔ (d ∈ sem ∨ d ∈ lex ∨ d ∈ rel))
    ∧ (∀ p ∈ rrfFuse sem lex rel,
        p.2 = rrfContrib sem p.1 + rrfContrib lex p.1 + rrfContrib rel p.1)
    ∧ List.Sorted rrfLE (rrfFuse sem lex rel)
    ∧ ((rrfFuse sem lex rel).map Prod.fst).Nodup := by
  refine ⟨?_, ?_, ?_, ?_⟩
  · intro d
    constructor
    · rintro ⟨q, hq⟩
      have h := (mem_rrfFuse sem lex rel (d, q)).mp hq
      have hd := List.mem_dedup.mp h.1
      simpa [List.mem_append, or_assoc] using hd
    · intro h
      refine ⟨rrfScore sem lex rel d, (mem_rrfFuse sem lex rel _).mpr ⟨?_, rfl⟩⟩
      rw [List.mem_dedup]
      simpa [List.mem_append, or_assoc] using h
  · intro p hp
    exact ((mem_rrfFuse sem lex rel p).mp hp).2
  · exact List.sorted_insertionSort rrfLE _
  · exact (map_fst_rrfFuse sem lex rel).nodup_iff.mpr (List.nodup_dedup _)

/-- Closed instantiation of `rrf_fusion_correct`. -/
theorem rrf_fusion_correct_witness :
    (∃ q, ((⟨1, 2, 3⟩ : ChunkKey), q) ∈
        rrfFuse [⟨1, 2, 3⟩, ⟨1, 2, 4⟩] [⟨1, 2, 4⟩] [])
    ∧ List.Sorted rrfLE (rrfFuse [⟨1, 2, 3⟩, ⟨1, 2, 4⟩] [⟨1, 2, 4⟩] []) :=
  ⟨((rrf_fusion_correct [⟨1, 2, 3⟩, ⟨1, 2, 4⟩] [⟨1, 2, 4⟩] []).1 ⟨1, 2, 3⟩).mpr
      (by simp),
    (rrf_fusion_correct [⟨1, 2, 3⟩, ⟨1, 2, 4⟩] [⟨1, 2, 4⟩] []).2.2.1⟩

/-! ## Monotonicity properties of the fusion score (C6) -/

theorem rrfTerm_pos (r : Nat) : 0 < rrfTerm r := by
  unfold rrfTerm RRF_K
  positivity

theorem rrfTerm_antitone {r₁ r₂ : Nat} (h : r₁ ≤ r₂) : rrfTerm r₂ ≤ rrfTerm r₁ := by
  unfold rrfTerm RRF_K
  have h1 : (0 : ℚ) < 60 + r₁ := by positivity
  have h2 : (60 : ℚ) + r₁ ≤ 60 + r₂ := by
    have : (r₁ : ℚ) ≤ r₂ := by exact_mod_cast h
    linarith
  exact one_div_le_one_div_of_le h1 h2

/-- `covers x y`: whenever the chunk compared against has a rank (`y`), the
chunk under comparison has the same rank (`x`). -/
def covers (x y : Option Nat) : Prop := ∀ r : Nat, y = some r → x = some r

theorem optTerm_nonneg (o : Option Nat) : 0 ≤ optTerm o := by
  cases o with
  | none => simp [optTerm]
  | some r => simpa [optTerm] using (rrfTerm_pos r).le

theorem optTerm_le_of_covers {x y : Option Nat} (h : covers x y) :
    optTerm y ≤ optTerm x := by
  cases y with
  | none => simpa [optTerm] using optTerm_nonneg x
  | some r => rw [h r rfl]

/-- C6: the per-list fusion contribution `1/(60 + rank)` is non-increasing as
the rank position worsens; a chunk present in strictly more lists than an
otherwise-identical chunk (same ranks in the shared lists) gets a strictly
greater fusion score; and with equal lexical rank-1 contributions, semantic
rank 2 beats semantic rank 10 strictly. -/
theorem rrf_score_monotone :
    (∀ r₁ r₂ : Nat, r₁ ≤ r₂ → rrfTerm r₂ ≤ rrfTerm r₁)
    ∧ (∀ sa la ra sb lb rb : Option Nat,
        covers sa sb → covers la lb → covers ra rb →
        ((sb = none ∧ sa ≠ none) ∨ (lb = none ∧ la ≠ none) ∨ (rb = none ∧ ra ≠ none)) →
        optTerm sb + optTerm lb + optTerm rb < optTerm sa + optTerm la + optTerm ra)
    ∧ (∀ (l : List ChunkKey) (d : ChunkKey), rrfContrib l d = optTerm (rankOpt l d))
    ∧ rrfTerm 10 + rrfTerm 1 < rrfTerm 2 + rrfTerm 1 := by
  refine ⟨fun r₁ r₂ h => rrfTerm_antitone h, ?_, ?_, ?_⟩
  · intro sa la ra sb lb rb hs hl hr hstrict
    have hles : optTerm sb ≤ optTerm sa := optTerm_le_of_covers hs
    have hlel : optTerm lb ≤ optTerm la := optTerm_le_of_covers hl
    have hler : optTerm rb ≤ optTerm ra := optTerm_le_of_covers hr
    have hz : optTerm none = 0 := rfl
    rcases hstrict with ⟨hb, ha⟩ | ⟨hb, ha⟩ | ⟨hb, ha⟩
    · obtain ⟨r, hr2⟩ := Option.ne_none_iff_exists'.mp ha
      have hpos : 0 < optTerm sa := by
        rw [hr2]
        exact rrfTerm_pos r
      rw [hb] at *
      linarith
    · obtain ⟨r, hr2⟩ := Option.ne_none_iff_exists'.mp ha
      have hpos : 0 < optTerm la := by
        rw [hr2]
        exact rrfTerm_pos r
      rw [hb] at *
      linarith
    · obtain ⟨r, hr2⟩ := Option.ne_none_iff_exists'.mp ha
      have hpos : 0 < optTerm ra := by
        rw [hr2]
        exact rrfTerm_pos r
      rw [hb] at *
      linarith
  · intro l d
    unfold rrfContrib rankOpt optTerm
    split <;> rfl
  · unfold rrfTerm RRF_K
    norm_num

/-- Closed instantiation of `rrf_score_monotone`. -/
theorem rrf_score_monotone_witness :
    rrfTerm 5 ≤ rrfTerm 3
    ∧ optTerm (some 1) + optTerm none + optTerm none <
        optTerm (some 1) + optTerm (some 2) + optTerm none :=
  ⟨rrf_score_monotone.1 3 5 (by norm_num),
    rrf_score_monotone.2.1 (some 1) (some 2) none (some 1) none none
      (fun r h => h) (fun r h => nomatch h) (fun r h => nomatch h)
      (Or.inr (Or.inl ⟨rfl, by simp⟩))⟩

/-! ## Retriever scoring, ranking and rescaling (C7) -/

/-- Retriever output order: descending raw score, ties by `retrTieLe`
(spec 4.2: ties broken by (page_num, chunk_index) ascending). -/
def scoredLE (a b : ChunkKey × ℚ) : Prop :=
  b.2 < a.2 ∨ (a.2 = b.2 ∧ retrTieLe a.1 b.1)

instance : DecidableRel scoredLE := fun a b => by
  unfold scoredLE
  infer_instance

instance : IsTotal (ChunkKey × ℚ) scoredLE where
  total a b := by
    unfold scoredLE
    rcases lt_trichotomy a.2 b.2 with h | h | h
    · exact Or.inr (Or.inl h)
    · rcases retrTieLe_total a.1 b.1 with hk | hk
      · exact Or.inl (Or.inr ⟨h, hk⟩)
      · exact Or.inr (Or.inr ⟨h.symm, hk⟩)
    · exact Or.inl (Or.inl h)

instance : IsTrans (ChunkKey × ℚ) scoredLE where
  trans a b c hab hbc := by
    unfold scoredLE at *
    rcases hab with hab | ⟨hab, hk⟩
    · rcases hbc with hbc | ⟨hbc, _⟩
      · exact Or.inl (hbc.trans hab)
      · exact Or.inl (hbc ▸ hab)
    · rcases hbc with hbc | ⟨hbc, hk2⟩
      · exact Or.inl (hab ▸ hbc)
      · exact Or.inr ⟨hab.trans hbc, retrTieLe_trans _ _ _ hk hk2⟩

/-- Modelled from the spec: a retriever orders its raw (chunk, score) pairs
by descending score with the deterministic tie-break. -/
def sortScored (l : List (ChunkKey × ℚ)) : List (ChunkKey × ℚ) :=
  List.insertionSort scoredLE l

/-- The ranked chunk list a retriever hands to the Fusion Ranker. -/
def rankList (l : List (ChunkKey × ℚ)) : List ChunkKey :=
  (sortScored l).map Prod.fst

/-- Apply a rescaling `f` to a retriever's raw scores. -/
def rescale (f : ℚ → ℚ) (l : List (ChunkKey × ℚ)) : List (ChunkKey × ℚ) :=
  l.map (fun p => (p.1, f p.2))

/-- Modelled from the spec: retrieval branches feed their ranked lists into
the Fusion Ranker; fusion consumes only the rank order. -/
def rrfPipeline (sem lex rel : List (ChunkKey × ℚ)) : List (ChunkKey × ℚ) :=
  rrfFuse (rankList sem) (rankList lex) (rankList rel)

theorem scoredLE_map_iff {f : ℚ → ℚ} (hf : StrictMono f) (a b : ChunkKey × ℚ) :
    scoredLE a b ↔ scoredLE (a.1, f a.2) (b.1, f b.2) := by
  unfold scoredLE
  simp only [hf.lt_iff_lt, hf.injective.eq_iff]

theorem rankList_rescale {f : ℚ → ℚ} (hf : StrictMono f) (l : List (ChunkKey × ℚ)) :
    rankList (rescale f l) = rankList l := by
  unfold rankList sortScored rescale
  have h := List.map_insertionSort scoredLE scoredLE (fun p => (p.1, f p.2)) l
    (fun a _ b _ => scoredLE_map_iff hf a b)
  rw [← h, List.map_map]
  rfl

/-- C7: applying any strictly monotonic rescaling to any one retriever's raw
scores leaves the RRF output unchanged, because fusion depends only on each
chunk's rank position within each list. -/
theorem rrf_rescale_invariant (f : ℚ → ℚ) (hf : StrictMono f)
    (sem lex rel : List (ChunkKey × ℚ)) :
    rrfPipeline (rescale f sem) lex rel = rrfPipeline sem lex rel
    ∧ rrfPipeline sem (rescale f lex) rel = rrfPipeline sem lex rel
    ∧ rrfPipeline sem lex (rescale f rel) = rrfPipeline sem lex rel := by
  unfold rrfPipeline
  rw [rankList_rescale hf sem, rankList_rescale hf lex, rankList_rescale hf rel]
  exact ⟨rfl, rfl, rfl⟩

/-- Closed instantiation of `rrf_rescale_invariant`. -/
theorem rrf_rescale_invariant_witness :
    rrfPipeline (rescale (fun x => x + 1) [((⟨1, 2, 3⟩ : ChunkKey), (5 : ℚ))]) [] []
      = rrfPipeline [((⟨1, 2, 3⟩ : ChunkKey), (5 : ℚ))] [] [] :=
  (rrf_rescale_invariant (fun x => x + 1) (fun _ _ h => add_lt_add_right h 1)
    [((⟨1, 2, 3⟩ : ChunkKey), (5 : ℚ))] [] []).1

/-! ## Min-max normalization and confidence score (C8) -/

theorem foldl_min_le (xs : List ℚ) :
    ∀ x v : ℚ, (v = x ∨ v ∈ xs) → xs.foldl min x ≤ v := by
  induction xs with
  | nil =>
    rintro x v (rfl | h)
    · simp
    · cases h
  | cons y ys ih =>
    intro x v hv
    rw [List.foldl_cons]
    rcases hv with hv | hv
    · rw [hv]
      exact le_trans (ih (min x y) _ (Or.inl rfl)) (min_le_left x y)
    · rcases List.mem_cons.mp hv with hv | hv
      · rw [hv]
        exact le_trans (ih (min x y) _ (Or.inl rfl)) (min_le_right x y)
      · exact ih (min x y) v (Or.inr hv)

theorem le_foldl_max (xs : List ℚ) :
    ∀ x v : ℚ, (v = x ∨ v ∈ xs) → v ≤ xs.foldl max x := by
  induction xs with
  | nil =>
    rintro x v (rfl | h)
    · simp
    · cases h
  | cons y ys ih =>
    intro x v hv
    rw [List.foldl_cons]
    rcases hv with hv | hv
    · rw [hv]
      exact le_trans (le_max_left x y) (ih (max x y) _ (Or.inl rfl))
    · rcases List.mem_cons.mp hv with hv | hv
      · rw [hv]
        exact le_trans (le_max_right x y) (ih (max x y) _ (Or.inl rfl))
      · exact ih (max x y) v (Or.inr hv)

/-- Modelled from the spec: the documented min-max scaling
`(score - min) / (max - min)`, guarded to 0 when the list is constant. -/
def mmNorm (mn mx v : ℚ) : ℚ :=
  if mx = mn then 0 else (v - mn) / (mx - mn)

/-- Modelled from the spec: min-max normalization of a score list to `[0,1]`
across its own list. -/
def minMaxNormalize (l : List ℚ) : List ℚ :=
  match l with
  | [] => []
  | x :: xs => (x :: xs).map (mmNorm (xs.foldl min x) (xs.foldl max x))

/-- Modelled from the spec: `confidence_score = round(fusion_normalized * 100)`. -/
def confidenceScore (q : ℚ) : ℤ := round (q * 100)

/-- Normalize the score component of one (chunk, score) pair. -/
def normPair (mn mx : ℚ) (p : ChunkKey × ℚ) : ChunkKey × ℚ :=
  (p.1, mmNorm mn mx p.2)

/-- Modelled from the spec: min-max normalization of a retriever's raw scores,
keeping each (chunk, score) pair in place; attached for display only. -/
def normalizeScored (l : List (ChunkKey × ℚ)) : List (ChunkKey × ℚ) :=
  match l with
  | [] => []
  | x :: xs =>
    (x :: xs).map
      (normPair ((xs.map Prod.snd).foldl min x.2) ((xs.map Prod.snd).foldl max x.2))

theorem minMaxNormalize_mem_bounds (l : List ℚ) :
    ∀ v ∈ minMaxNormalize l, 0 ≤ v ∧ v ≤ 1 := by
  cases l with
  | nil =>
    intro v hv
    cases hv
  | cons x xs =>
    intro v hv
    unfold minMaxNormalize at hv
    simp only [List.mem_map] at hv
    obtain ⟨u, hu, rfl⟩ := hv
    unfold mmNorm
    by_cases h : xs.foldl max x = xs.foldl min x
    · simp [h]
    · have hu2 : u = x ∨ u ∈ xs := List.mem_cons.mp hu
      have hmnu : xs.foldl min x ≤ u := foldl_min_le xs x u hu2
      have humx : u ≤ xs.foldl max x := le_foldl_max xs x u hu2
      have hmnx : xs.foldl min x ≤ xs.foldl max x :=
        le_trans (foldl_min_le xs x x (Or.inl rfl)) (le_foldl_max xs x x (Or.inl rfl))
      have hlt : xs.foldl min x < xs.foldl max x :=
        lt_of_le_of_ne hmnx (fun e => h e.symm)
      have hden : 0 < xs.foldl max x - xs.foldl min x := sub_pos.mpr hlt
      rw [if_neg h]
      constructor
      · exact div_nonneg (sub_nonneg.mpr hmnu) hden.le
      · exact (div_le_one hden).mpr (sub_le_sub_right humx _)

theorem confidenceScore_mem_bounds {q : ℚ} (h0 : 0 ≤ q) (h1 : q ≤ 1) :
    0 ≤ confidenceScore q ∧ confidenceScore q ≤ 100 := by
  unfold confidenceScore
  rw [round_eq]
  constructor
  · apply Int.le_floor.mpr
    have : (0 : ℚ) ≤ q * 100 := mul_nonneg h0 (by norm_num)
    push_cast
    linarith
  · have hle : q * 100 + 1 / 2 ≤ ((100 : ℤ) : ℚ) + 1 / 2 := by
      have : q * 100 ≤ 100 := by nlinarith
      push_cast
      linarith
    calc ⌊q * 100 + 1 / 2⌋ ≤ ⌊((100 : ℤ) : ℚ) + 1 / 2⌋ := Int.floor_mono hle
      _ = 100 + ⌊(1 / 2 : ℚ)⌋ := Int.floor_int_add 100 _
      _ = 100 := by
          rw [Int.floor_eq_zero_iff.mpr (by constructor <;> norm_num)]
          norm_num

theorem mmNorm_strictMono {mn mx : ℚ} (hlt : mn < mx) : StrictMono (mmNorm mn mx) := by
  intro a b hab
  unfold mmNorm
  rw [if_neg (ne_of_gt hlt), if_neg (ne_of_gt hlt)]
  exact (div_lt_div_iff_of_pos_right (sub_pos.mpr hlt)).mpr (sub_lt_sub_right hab mn)

theorem rankList_normalizeScored (l : List (ChunkKey × ℚ)) :
    rankList (normalizeScored l) = rankList l := by
  cases l with
  | nil => rfl
  | cons x xs =>
    have hbounds : ∀ p ∈ x :: xs,
        (xs.map Prod.snd).foldl min x.2 ≤ p.2 ∧ p.2 ≤ (xs.map Prod.snd).foldl max x.2 := by
      intro p hp
      have hmem : p.2 = x.2 ∨ p.2 ∈ xs.map Prod.snd := by
        rcases List.mem_cons.mp hp with h | h
        · exact Or.inl (by rw [h])
        · exact Or.inr (List.mem_map_of_mem Prod.snd h)
      exact ⟨foldl_min_le (xs.map Prod.snd) x.2 p.2 hmem,
        le_foldl_max (xs.map Prod.snd) x.2 p.2 hmem⟩
    have hl : ∀ a ∈ x :: xs, ∀ b ∈ x :: xs,
        scoredLE a b ↔
          scoredLE (normPair ((xs.map Prod.snd).foldl min x.2) ((xs.map Prod.snd).foldl max x.2) a)
            (normPair ((xs.map Prod.snd).foldl min x.2) ((xs.map Prod.snd).foldl max x.2) b) := by
      by_cases hdeg : (xs.map Prod.snd).foldl max x.2 = (xs.map Prod.snd).foldl min x.2
      · intro a ha b hb
        have hva : a.2 = (xs.map Prod.snd).foldl min x.2 :=
          le_antisymm (hdeg ▸ (hbounds a ha).2) (hbounds a ha).1
        have hvb : b.2 = (xs.map Prod.snd).foldl min x.2 :=
          le_antisymm (hdeg ▸ (hbounds b hb).2) (hbounds b hb).1
        unfold normPair mmNorm scoredLE
        rw [if_pos hdeg, if_pos hdeg, hva, hvb]
        simp
      · have hmnx : (xs.map Prod.snd).foldl min x.2 ≤ (xs.map Prod.snd).foldl max x.2 :=
          (hbounds x (List.mem_cons_self x xs)).1.trans (hbounds x (List.mem_cons_self x xs)).2
        have hlt : (xs.map Prod.snd).foldl min x.2 < (xs.map Prod.snd).foldl max x.2 :=
          lt_of_le_of_ne hmnx (fun e => hdeg e.symm)
        intro a _ b _
        exact scoredLE_map_iff (mmNorm_strictMono hlt) a b
    have h := List.map_insertionSort scoredLE scoredLE
      (normPair ((xs.map Prod.snd).foldl min x.2) ((xs.map Prod.snd).foldl max x.2)) (x :: xs) hl
    unfold rankList sortScored normalizeScored
    rw [← h, List.map_map]
    rfl

/-- C8: min-max normalization sends every per-signal score into `[0,1]`;
the confidence score is `round(fusion_normalized * 100)` and lies in
`[0,100]` whenever its input is normalized; and normalizing a retriever's
scores never changes the rank order the RRF computation consumes. -/
theorem score_normalization_correct :
    (∀ l : List ℚ, ∀ v ∈ minMaxNormalize l, 0 ≤ v ∧ v ≤ 1)
    ∧ (∀ q : ℚ, 0 ≤ q → q ≤ 1 →
        confidenceScore q = round (q * 100)
          ∧ 0 ≤ confidenceScore q ∧ confidenceScore q ≤ 100)
    ∧ (∀ l : List (ChunkKey × ℚ), rankList (normalizeScored l) = rankList l) := by
  refine ⟨minMaxNormalize_mem_bounds, ?_, rankList_normalizeScored⟩
  intro q h0 h1
  exact ⟨rfl, (confidenceScore_mem_bounds h0 h1).1, (confidenceScore_mem_bounds h0 h1).2⟩

/-- Closed instantiation of `score_normalization_correct`. -/
theorem score_normalization_correct_witness :
    ((0 : ℚ) ≤ 0 ∧ (0 : ℚ) ≤ 1)
    ∧ (confidenceScore (1 / 2) = round ((1 / 2 : ℚ) * 100)
        ∧ 0 ≤ confidenceScore (1 / 2) ∧ confidenceScore (1 / 2) ≤ 100)
    ∧ rankList (normalizeScored [((⟨1, 2, 3⟩ : ChunkKey), (7 : ℚ))])
        = rankList [((⟨1, 2, 3⟩ : ChunkKey), (7 : ℚ))] :=
  ⟨score_normalization_correct.1 [(3 : ℚ), 5] 0 (by norm_num [minMaxNormalize, mmNorm]),
    score_normalization_correct.2.1 (1 / 2) (by norm_num) (by norm_num),
    score_normalization_correct.2.2 [((⟨1, 2, 3⟩ : ChunkKey), (7 : ℚ))]⟩

/-! ## Parent/child chunk store (C2)

From migration 001: `chunk_type ∈ {PARENT, CHILD}` (default CHILD),
`parent_chunk_id REFERENCES pdf_chunks(id) ON DELETE CASCADE`, embeddings
restricted to CHILD chunks. The ingestion/search application code is not among
the shipped sources, so its operations are modelled from the spec (3, 8). -/

inductive ChunkType where
  | PARENT
  | CHILD
deriving DecidableEq, Repr

structure ChunkRec where
  id : Nat
  document_id : Nat
  page_num : Nat
  chunk_index : Nat
  chunk_type : ChunkType
  parent_chunk_id : Option Nat
  embedded : Bool
deriving DecidableEq, Repr

abbrev ChunkStore := List ChunkRec

/-- The hierarchy condition on one chunk (spec 3): `parent_chunk_id`, if set,
is set on a CHILD chunk and resolves to a PARENT chunk of the same document. -/
def wellLinked (s : ChunkStore) (c : ChunkRec) : Bool :=
  match c.parent_chunk_id with
  | none => true
  | some pid =>
    (c.chunk_type == ChunkType.CHILD) &&
      s.any (fun p => p.id == pid && p.chunk_type == ChunkType.PARENT
        && p.document_id == c.document_id)

/-- `ON DELETE CASCADE` from migration 001: deleting chunk `cid` also deletes
every chunk whose `parent_chunk_id` references it. -/
def cascadeDelete (s : ChunkStore) (cid : Nat) : ChunkStore :=
  s.filter (fun c => !(c.id == cid) && !(c.parent_chunk_id == some cid))

/-- The embedded-flag flip for one row (CHILD chunks are the embedding
targets, per migration 001's indexes); all other fields are immutable. -/
def embedFlag (cid : Nat) (c : ChunkRec) : ChunkRec :=
  if c.id == cid && c.chunk_type == ChunkType.CHILD then
    { c with embedded := true }
  else c

/-- Modelled from the spec: the only mutation after ingestion — marking a
chunk embedded once vectorization succeeds. -/
def setEmbedded (s : ChunkStore) (cid : Nat) : ChunkStore :=
  s.map (embedFlag cid)

/-- Modelled from the spec: the chunks semantic search may return — only
CHILD chunks with `embedded = true` ever carry embeddings. -/
def semanticCandidates (s : ChunkStore) : ChunkStore :=
  s.filter (fun c => c.chunk_type == ChunkType.CHILD && c.embedded)

/-- Modelled from the spec: reachable chunk-store states — bulk ingestion of
batches whose links resolve within the resulting store, cascade deletion,
and the embedded-flag flip. -/
inductive ChunkReach : ChunkStore → Prop where
  | empty : ChunkReach []
  | ingest (s batch : ChunkStore) : ChunkReach s →
      (∀ c ∈ batch, wellLinked (s ++ batch) c = true) → ChunkReach (s ++ batch)
  | delete (s : ChunkStore) (cid : Nat) : ChunkReach s →
      ChunkReach (cascadeDelete s cid)
  | embed (s : ChunkStore) (cid : Nat) : ChunkReach s →
      ChunkReach (setEmbedded s cid)

theorem wellLinked_append_right (s t : ChunkStore) (c : ChunkRec)
    (h : wellLinked s c = true) : wellLinked (s ++ t) c = true := by
  unfold wellLinked at *
  cases hp : c.parent_chunk_id with
  | none => rfl
  | some pid =>
    rw [hp] at h
    simp only [List.any_append, Bool.and_eq_true, Bool.or_eq_true] at *
    exact ⟨h.1, Or.inl h.2⟩

theorem wellLinked_cascadeDelete (s : ChunkStore) (cid : Nat)
    (hInv : ∀ c ∈ s, wellLinked s c = true) :
    ∀ c ∈ cascadeDelete s cid, wellLinked (cascadeDelete s cid) c = true := by
  intro c hc
  obtain ⟨hcs, hpred⟩ := List.mem_filter.mp hc
  unfold wellLinked
  cases hp : c.parent_chunk_id with
  | none => rfl
  | some pid =>
    have h := hInv c hcs
    unfold wellLinked at h
    rw [hp] at h
    simp only [Bool.and_eq_true, List.any_eq_true, beq_iff_eq] at h
    obtain ⟨hchild, p, hps, ⟨hpid, hptype⟩, hpdoc⟩ := h
    have hpidne : pid ≠ cid := by
      intro e
      rw [hp, e] at hpred
      simp at hpred
    have hpparent : p.parent_chunk_id = none := by
      have h2 := hInv p hps
      unfold wellLinked at h2
      cases hq : p.parent_chunk_id with
      | none => rfl
      | some q =>
        rw [hq] at h2
        simp only [Bool.and_eq_true, beq_iff_eq] at h2
        rw [hptype] at h2
        exact absurd h2.1 (by simp)
    have hpmem : p ∈ cascadeDelete s cid := by
      apply List.mem_filter.mpr
      refine ⟨hps, ?_⟩
      simp [hpid, hpidne, hpparent]
    simp only [Bool.and_eq_true, List.any_eq_true, beq_iff_eq]
    exact ⟨hchild, p, hpmem, ⟨hpid, hptype⟩, hpdoc⟩

theorem embedFlag_fields (cid : Nat) (c : ChunkRec) :
    (embedFlag cid c).id = c.id
    ∧ (embedFlag cid c).document_id = c.document_id
    ∧ (embedFlag cid c).chunk_type = c.chunk_type
    ∧ (embedFlag cid c).parent_chunk_id = c.parent_chunk_id := by
  unfold embedFlag
  split <;> exact ⟨rfl, rfl, rfl, rfl⟩

theorem wellLinked_setEmbedded (s : ChunkStore) (cid : Nat)
    (hInv : ∀ c ∈ s, wellLinked s c = true) :
    ∀ c ∈ setEmbedded s cid, wellLinked (setEmbedded s cid) c = true := by
  intro c hc
  obtain ⟨c0, hc0, rfl⟩ := List.mem_map.mp hc
  obtain ⟨_, _, htype, hparent⟩ := embedFlag_fields cid c0
  unfold wellLinked
  rw [hparent]
  cases hp : c0.parent_chunk_id with
  | none => rfl
  | some pid =>
    have h := hInv c0 hc0
    unfold wellLinked at h
    rw [hp] at h
    simp only [Bool.and_eq_true, List.any_eq_true, beq_iff_eq] at h
    obtain ⟨hchild, p, hps, ⟨hpid, hptype⟩, hpdoc⟩ := h
    simp only [Bool.and_eq_true, List.any_eq_true, beq_iff_eq]
    refine ⟨by rw [htype]; exact hchild, embedFlag cid p, List.mem_map_of_mem _ hps, ?_⟩
    obtain ⟨hid2, hdoc2, htype2, _⟩ := embedFlag_fields cid p
    obtain ⟨_, hdoc3, _, _⟩ := embedFlag_fields cid c0
    exact ⟨⟨by rw [hid2]; exact hpid, by rw [htype2]; exact hptype⟩,
      by rw [hdoc2, hdoc3]; exact hpdoc⟩

/-- C2: in every reachable chunk-store state, each chunk with a set
`parent_chunk_id` is a CHILD whose parent resolves to a PARENT chunk of the
same document (so no surviving chunk references a deleted or missing parent,
cascade deletion included), and no PARENT chunk is ever a semantic-search
candidate — only embedded CHILD chunks are. -/
theorem chunk_hierarchy_invariant (s : ChunkStore) (hs : ChunkReach s) :
    (∀ c ∈ s, wellLinked s c = true)
    ∧ (∀ c ∈ semanticCandidates s,
        c.chunk_type = ChunkType.CHILD ∧ c.embedded = true) := by
  constructor
  · induction hs with
    | empty =>
      intro c hc
      cases hc
    | ingest s batch hr hb ih =>
      intro c hc
      rcases List.mem_append.mp hc with h | h
      · exact wellLinked_append_right s batch c (ih c h)
      · exact hb c h
    | delete s cid hr ih => exact wellLinked_cascadeDelete s cid ih
    | embed s cid hr ih => exact wellLinked_setEmbedded s cid ih
  · intro c hc
    obtain ⟨_, hpred⟩ := List.mem_filter.mp hc
    simp only [Bool.and_eq_true, beq_iff_eq] at hpred
    exact hpred

/-- Closed instantiation of `chunk_hierarchy_invariant`. -/
theorem chunk_hierarchy_invariant_witness :
    wellLinked [⟨1, 10, 1, 0, ChunkType.PARENT, none, false⟩,
        ⟨2, 10, 1, 1, ChunkType.CHILD, some 1, false⟩]
      ⟨2, 10, 1, 1, ChunkType.CHILD, some 1, false⟩ = true :=
  (chunk_hierarchy_invariant _
      (ChunkReach.ingest []
        [⟨1, 10, 1, 0, ChunkType.PARENT, none, false⟩,
          ⟨2, 10, 1, 1, ChunkType.CHILD, some 1, false⟩]
        ChunkReach.empty (by decide))).1
    ⟨2, 10, 1, 1, ChunkType.CHILD, some 1, false⟩ (by decide)

/-! ## Search errors, branch fan-in, reranker adapter, query entry (C3-C5) -/

inductive SearchError where
  | invalidQuery
  | allBranchesFailed
deriving DecidableEq, Repr

inductive BranchError where
  | timeout
  | unavailable
deriving DecidableEq, Repr

structure SearchOutcome where
  results : List (ChunkKey × ℚ)
  totalResults : Nat
deriving DecidableEq, Repr

/-- Modelled from the spec (5, 7): a branch that errored or timed out is
treated as having returned an empty list. -/
def branchOrEmpty : Except BranchError (List ChunkKey) → List ChunkKey
  | .ok l => l
  | .error _ => []

/-- Modelled from the spec (5, 7): fan-in of the three retrieval branches.
If every branch failed the query fails with `allBranchesFailed`; otherwise
failed branches degrade to empty lists and fusion proceeds. -/
def runBranches (sem lex rel : Except BranchError (List ChunkKey)) :
    Except SearchError SearchOutcome :=
  match sem, lex, rel with
  | .error _, .error _, .error _ => .error .allBranchesFailed
  | _, _, _ =>
    let out := rrfFuse (branchOrEmpty sem) (branchOrEmpty lex) (branchOrEmpty rel)
    .ok ⟨out, out.length⟩

/-- C4: three branches that complete with zero eligible chunks yield
`totalResults = 0` and an empty result list without error; the query surfaces
an error exactly when every branch itself failed, and that error is
`allBranchesFailed`. -/
theorem empty_results_not_error (sem lex rel : Except BranchError (List ChunkKey)) :
    (runBranches (.ok []) (.ok []) (.ok []) = .ok ⟨[], 0⟩)
    ∧ (sem = .ok [] → lex = .ok [] → rel = .ok [] →
        runBranches sem lex rel = .ok ⟨[], 0⟩)
    ∧ ((∃ e, runBranches sem lex rel = .error e) ↔
        ((∃ a, sem = .error a) ∧ (∃ b, lex = .error b) ∧ (∃ c, rel = .error c)))
    ∧ (∀ e, runBranches sem lex rel = .error e → e = .allBranchesFailed) := by
  refine ⟨rfl, ?_, ?_, ?_⟩
  · rintro rfl rfl rfl
    rfl
  · rcases sem with a | la <;> rcases lex with b | lb <;> rcases rel with c | lc <;>
      simp [runBranches]
  · intro e
    rcases sem with a | la <;> rcases lex with b | lb <;> rcases rel with c | lc <;>
      simp [runBranches]
    exact fun h => h.symm

/-- Closed instantiation of `empty_results_not_error`. -/
theorem empty_results_not_error_witness :
    runBranches (.error .timeout) (.error .unavailable) (.error .timeout)
      = .error .allBranchesFailed
    ∧ runBranches (.ok []) (.ok []) (.ok []) = .ok ⟨[], 0⟩ :=
  ⟨by
    obtain ⟨e, he⟩ :=
      ((empty_results_not_error (.error .timeout) (.error .unavailable)
          (.error .timeout)).2.2.1).mpr
        ⟨⟨.timeout, rfl⟩, ⟨.unavailable, rfl⟩, ⟨.timeout, rfl⟩⟩
    rw [he,
      (empty_results_not_error (.error .timeout) (.error .unavailable)
          (.error .timeout)).2.2.2 e he],
    (empty_results_not_error (.ok []) (.ok []) (.ok [])).2.1 rfl rfl rfl⟩

/-- Modelled from the spec (4.4): the external pairwise scorer is available,
unavailable, or over its time budget. -/
inductive RerankStatus where
  | available (score : ChunkKey → ℚ)
  | unavailable
  | timedOut

/-- Rerank order: descending external score. -/
def rerankLE (score : ChunkKey → ℚ) (a b : ChunkKey × ℚ) : Prop :=
  score b.1 ≤ score a.1

instance (score : ChunkKey → ℚ) : DecidableRel (rerankLE score) := fun a b => by
  unfold rerankLE
  infer_instance

/-- Modelled from the spec (4.4): re-sort the fused list by the external
scorer when it is available; otherwise pass the fused order through
unchanged. -/
def rerankAdapter (st : RerankStatus) (fused : List (ChunkKey × ℚ)) :
    List (ChunkKey × ℚ) :=
  match st with
  | .available score => List.insertionSort (rerankLE score) fused
  | .unavailable => fused
  | .timedOut => fused

/-- Modelled from the spec (4.4, 7): the rerank stage of the pipeline never
turns reranker trouble into a search failure. -/
def rerankStage (st : RerankStatus) (fused : List (ChunkKey × ℚ)) :
    Except SearchError (List (ChunkKey × ℚ)) :=
  .ok (rerankAdapter st fused)

/-- C3: when the external scorer is unavailable or over budget, the final
order equals the pre-rerank fused order exactly, and no reranker state ever
surfaces as an error for the overall search. -/
theorem reranker_degrade_passthrough (fused : List (ChunkKey × ℚ)) :
    rerankAdapter .unavailable fused = fused
    ∧ rerankAdapter .timedOut fused = fused
    ∧ rerankStage .unavailable fused = .ok fused
    ∧ rerankStage .timedOut fused = .ok fused
    ∧ ∀ st : RerankStatus, ∃ out, rerankStage st fused = .ok out :=
  ⟨rfl, rfl, rfl, rfl, fun st => ⟨rerankAdapter st fused, rfl⟩⟩

/-- Modelled from the spec (6): the query request shape
`{query, documentIds?, limit? (default 20)}`. -/
structure SearchRequest where
  query : String
  documentIds : Option (List Nat)
  limit : Option Nat

/-- The default result limit of 20. -/
def requestLimit (r : SearchRequest) : Nat := r.limit.getD 20

/-- Trimming as in the frontend guards (`query.trim()`): strip leading and
trailing whitespace (whitespace modelled by `Char.isWhitespace`). -/
def jsTrim (s : String) : String :=
  ⟨((s.data.dropWhile Char.isWhitespace).reverse.dropWhile Char.isWhitespace).reverse⟩

/-- Emptiness of a string, over its character list. -/
def strIsEmpty (s : String) : Bool := s.data.isEmpty

/-- Modelled from the spec (4.1, 7), mirroring the frontend guards
(`if (!query.trim()) return` in SearchPage/SearchBar): a query that is empty
after trimming is rejected up front with `invalidQuery` and no retriever is
invoked; the second component counts retriever invocations. -/
def queryEntry (req : SearchRequest) (sem lex rel : Except BranchError (List ChunkKey)) :
    Except SearchError SearchOutcome × Nat :=
  if strIsEmpty (jsTrim req.query) then (.error .invalidQuery, 0)
  else (runBranches sem lex rel, 3)

theorem runBranches_ne_invalidQuery (sem lex rel : Except BranchError (List ChunkKey)) :
    runBranches sem lex rel ≠ .error .invalidQuery := by
  rcases sem with a | la <;> rcases lex with b | lb <;> rcases rel with c | lc <;>
    simp [runBranches]

/-- C5: a query whose trimmed form is empty fails immediately with
`invalidQuery` and zero retriever invocations; a query that is non-empty
after trimming is never rejected with `invalidQuery` and all three
retrievers are invoked. -/
theorem invalid_query_rejected (req : SearchRequest)
    (sem lex rel : Except BranchError (List ChunkKey)) :
    (strIsEmpty (jsTrim req.query) = true →
      queryEntry req sem lex rel = (.error .invalidQuery, 0))
    ∧ (strIsEmpty (jsTrim req.query) = false →
      (queryEntry req sem lex rel).1 ≠ .error .invalidQuery
        ∧ (queryEntry req sem lex rel).2 = 3) := by
  constructor
  · intro h
    simp [queryEntry, h]
  · intro h
    simp only [queryEntry, h, Bool.false_eq_true, if_false]
    exact ⟨runBranches_ne_invalidQuery sem lex rel, trivial⟩

/-- Closed instantiation of `invalid_query_rejected`. -/
theorem invalid_query_rejected_witness :
    queryEntry ⟨"   ", none, none⟩ (.ok []) (.ok []) (.ok [])
      = (.error .invalidQuery, 0)
    ∧ (queryEntry ⟨" revenue growth ", none, none⟩ (.ok []) (.ok []) (.ok [])).2 = 3 :=
  ⟨(invalid_query_rejected ⟨"   ", none, none⟩ (.ok []) (.ok []) (.ok [])).1 (by decide),
    ((invalid_query_rejected ⟨" revenue growth ", none, none⟩
        (.ok []) (.ok []) (.ok [])).2 (by decide)).2⟩

/-! ## Derived tsvector search keys (C9)

Embedded from the shipped migration: trigger function
`update_pdf_chunks_lexical_tsv` sets `NEW.lexical_tsv :=
to_tsvector('english', COALESCE(NEW.chunk_text, ''))` and
`update_pdf_triples_triple_tsv` sets `NEW.triple_tsv :=
to_tsvector('english', CONCAT_WS(' ', NEW.subject, NEW.predicate,
NEW.object))`, each firing BEFORE INSERT OR UPDATE, FOR EACH ROW.
`to_tsvector('english', ·)` is a PostgreSQL builtin (an external
collaborator here), abstracted as an arbitrary total function `tsv`. -/

structure PdfChunkRow (τ : Type) where
  chunk_text : Option String
  lexical_tsv : Option τ

structure PdfTripleRow (τ : Type) where
  subject : String
  predicate : String
  obj : String
  triple_tsv : Option τ

/-- SQL `CONCAT_WS(sep, ...)` over non-NULL arguments. -/
def concat_ws (sep : String) : List String → String
  | [] => ""
  | [x] => x
  | x :: xs => x ++ sep ++ concat_ws sep xs

/-- The BEFORE INSERT OR UPDATE trigger on `pdf_chunks`:
`NEW.lexical_tsv := to_tsvector('english', COALESCE(NEW.chunk_text, ''))`. -/
def update_pdf_chunks_lexical_tsv {τ : Type} (tsv : String → τ)
    (r : PdfChunkRow τ) : PdfChunkRow τ :=
  { r with lexical_tsv := some (tsv (r.chunk_text.getD "")) }

/-- The BEFORE INSERT OR UPDATE trigger on `pdf_triples`:
`NEW.triple_tsv := to_tsvector('english', CONCAT_WS(' ', subject, predicate,
object))`. -/
def update_pdf_triples_triple_tsv {τ : Type} (tsv : String → τ)
    (r : PdfTripleRow τ) : PdfTripleRow τ :=
  { r with triple_tsv := some (tsv (concat_ws " " [r.subject, r.predicate, r.obj])) }

/-- Chunk-table states reachable through the trigger-guarded writes: every
insert or update passes the NEW row through the trigger first. -/
inductive ChunkTableReach {τ : Type} (tsv : String → τ) :
    List (PdfChunkRow τ) → Prop where
  | empty : ChunkTableReach tsv []
  | insert (s : List (PdfChunkRow τ)) (r : PdfChunkRow τ) :
      ChunkTableReach tsv s →
      ChunkTableReach tsv (s ++ [update_pdf_chunks_lexical_tsv tsv r])
  | update (s : List (PdfChunkRow τ)) (i : Nat) (r : PdfChunkRow τ) :
      ChunkTableReach tsv s →
      ChunkTableReach tsv (s.set i (update_pdf_chunks_lexical_tsv tsv r))

/-- Triple-table states reachable through the trigger-guarded writes. -/
inductive TripleTableReach {τ : Type} (tsv : String → τ) :
    List (PdfTripleRow τ) → Prop where
  | empty : TripleTableReach tsv []
  | insert (s : List (PdfTripleRow τ)) (r : PdfTripleRow τ) :
      TripleTableReach tsv s →
      TripleTableReach tsv (s ++ [update_pdf_triples_triple_tsv tsv r])
  | update (s : List (PdfTripleRow τ)) (i : Nat) (r : PdfTripleRow τ) :
      TripleTableReach tsv s →
      TripleTableReach tsv (s.set i (update_pdf_triples_triple_tsv tsv r))

/-- C9: in every reachable table state, each chunk row's lexical search key
equals `to_tsvector` of its text with NULL coalesced to the empty string, and
each triple row's relation search key equals `to_tsvector` of
subject-space-predicate-space-object; the derivation is total by
construction. -/
theorem derived_search_keys_invariant {τ : Type} (tsv : String → τ) :
    (∀ s, ChunkTableReach tsv s →
      ∀ r ∈ s, r.lexical_tsv = some (tsv (r.chunk_text.getD "")))
    ∧ (∀ s, TripleTableReach tsv s →
      ∀ r ∈ s, r.triple_tsv = some (tsv (r.subject ++ " " ++ (r.predicate ++ " " ++ r.obj)))) := by
  constructor
  · intro s hs
    induction hs with
    | empty =>
      intro r hr
      cases hr
    | insert s r0 hr ih =>
      intro r hrmem
      rcases List.mem_append.mp hrmem with h | h
      · exact ih r h
      · rcases List.mem_singleton.mp h with rfl
        rfl
    | update s i r0 hr ih =>
      intro r hrmem
      rcases List.mem_or_eq_of_mem_set hrmem with h | h
      · exact ih r h
      · rcases h with rfl
        rfl
  · intro s hs
    induction hs with
    | empty =>
      intro r hr
      cases hr
    | insert s r0 hr ih =>
      intro r hrmem
      rcases List.mem_append.mp hrmem with h | h
      · exact ih r h
      · rcases List.mem_singleton.mp h with rfl
        rfl
    | update s i r0 hr ih =>
      intro r hrmem
      rcases List.mem_or_eq_of_mem_set hrmem with h | h
      · exact ih r h
      · rcases h with rfl
        rfl

/-- Closed instantiation of `derived_search_keys_invariant`. -/
theorem derived_search_keys_invariant_witness :
    (update_pdf_chunks_lexical_tsv (fun s : String => s)
        ⟨some "hello world", none⟩).lexical_tsv = some "hello world"
    ∧ (update_pdf_triples_triple_tsv (fun s : String => s)
        ⟨"Einstein", "developed", "relativity", none⟩).triple_tsv
      = some "Einstein developed relativity" := by
  constructor
  · have h := (derived_search_keys_invariant (fun s : String => s)).1
      ([] ++ [update_pdf_chunks_lexical_tsv (fun s : String => s) ⟨some "hello world", none⟩])
      (ChunkTableReach.insert [] ⟨some "hello world", none⟩ ChunkTableReach.empty)
      (update_pdf_chunks_lexical_tsv (fun s : String => s) ⟨some "hello world", none⟩)
      (by simp)
    simpa using h
  · have h := (derived_search_keys_invariant (fun s : String => s)).2
      ([] ++ [update_pdf_triples_triple_tsv (fun s : String => s)
        ⟨"Einstein", "developed", "relativity", none⟩])
      (TripleTableReach.insert [] ⟨"Einstein", "developed", "relativity", none⟩
        TripleTableReach.empty)
      (update_pdf_triples_triple_tsv (fun s : String => s)
        ⟨"Einstein", "developed", "relativity", none⟩)
      (by simp)
    simpa using h

/-! ## UI percentage formatter (C10)

Embedded from `ResultCard.tsx`:
the function checks `typeof value !== "number" || !isFinite(value)` and
returns "0%" in that case; otherwise it returns
`Math.round(Math.max(0, Math.min(value, 1)) * 100) + "%"`.
A JavaScript `number | undefined` argument is modelled as `undefined`, the
non-finite values NaN and plus or minus infinity, or a finite rational. -/

inductive JSVal where
  | undef
  | nan
  | posInf
  | negInf
  | num (q : ℚ)

/-- `Math.max(0, Math.min(value, 1))` on a finite number. -/
def jsClamp01 (q : ℚ) : ℚ := max 0 (min q 1)

/-- `Math.round` on a finite number: floor of `x + 1/2`. -/
def jsMathRound (q : ℚ) : ℤ := ⌊q + 1 / 2⌋

/-- `formatPct` from `ResultCard.tsx`. -/
def formatPct : JSVal → String
  | .num q => toString (jsMathRound (jsClamp01 q * 100)) ++ "%"
  | _ => "0%"

theorem jsMathRound_scale_bounds {x : ℚ} (h0 : 0 ≤ x) (h1 : x ≤ 1) :
    0 ≤ jsMathRound (x * 100) ∧ jsMathRound (x * 100) ≤ 100 := by
  unfold jsMathRound
  constructor
  · apply Int.le_floor.mpr
    have : (0 : ℚ) ≤ x * 100 := mul_nonneg h0 (by norm_num)
    push_cast
    linarith
  · have hle : x * 100 + 1 / 2 ≤ ((100 : ℤ) : ℚ) + 1 / 2 := by
      have : x * 100 ≤ 100 := by nlinarith
      push_cast
      linarith
    calc ⌊x * 100 + 1 / 2⌋ ≤ ⌊((100 : ℤ) : ℚ) + 1 / 2⌋ := Int.floor_mono hle
      _ = 100 + ⌊(1 / 2 : ℚ)⌋ := Int.floor_int_add 100 _
      _ = 100 := by
          rw [Int.floor_eq_zero_iff.mpr (by constructor <;> norm_num)]
          norm_num

theorem jsClamp01_mem_unit (q : ℚ) : 0 ≤ jsClamp01 q ∧ jsClamp01 q ≤ 1 :=
  ⟨le_max_left 0 _, max_le (by norm_num) (min_le_right q 1)⟩

/-- C10: `formatPct` always renders a whole-number percentage between "0%"
and "100%": non-numbers and non-finite numbers map to "0%", and finite
numbers are clamped to `[0,1]` before scaling by 100 and rounding. -/
theorem formatPct_in_range :
    (∀ v : JSVal, ∃ n : Nat, n ≤ 100 ∧ formatPct v = toString ((n : ℤ)) ++ "%")
    ∧ formatPct .undef = "0%" ∧ formatPct .nan = "0%"
    ∧ formatPct .posInf = "0%" ∧ formatPct .negInf = "0%"
    ∧ (∀ q : ℚ, formatPct (.num q) = toString (jsMathRound (jsClamp01 q * 100)) ++ "%")
    ∧ (∀ q : ℚ, 0 ≤ jsClamp01 q ∧ jsClamp01 q ≤ 1) := by
  refine ⟨?_, rfl, rfl, rfl, rfl, fun _ => rfl, jsClamp01_mem_unit⟩
  intro v
  cases v with
  | num q =>
    obtain ⟨hc0, hc1⟩ := jsClamp01_mem_unit q
    obtain ⟨hz0, hz1⟩ := jsMathRound_scale_bounds hc0 hc1
    refine ⟨(jsMathRound (jsClamp01 q * 100)).toNat, by omega, ?_⟩
    rw [Int.toNat_of_nonneg hz0]
    rfl
  | undef => exact ⟨0, by omega, rfl⟩
  | nan => exact ⟨0, by omega, rfl⟩
  | posInf => exact ⟨0, by omega, rfl⟩
  | negInf => exact ⟨0, by omega, rfl⟩
